import Mathlib

/-!
Verification development for the two benchmark utility scripts:

* `performance/hyperfine-commits.py` (the Runner): builds one invocation of the
  external `hyperfine` tool over a sorted directory listing of executables.
* `performance/transform-benchmark-data.py` (the Transformer): reads a hyperfine
  JSON report, extracts a `(sequence, revision)` label from each command string
  with the regex `([^/]+/)?([0-9]+)-([0-9a-f]+) .*`, and flattens each result
  entry into one record per timing sample, annotated with commit metadata.

Python `dict`s (insertion-ordered, unique keys) are embedded as association
lists over `List Char` keys; JSON values as an inductive `JVal`; fallible
script runs as `Option` (an unhandled Python exception is `none`: the script
writes its output only after the loop finishes, so a failure produces nothing).
-/

/-- Strings are modelled as lists of characters (Python `str` is a sequence of
code points, and `sorted` compares them pointwise by code point). -/
abbrev Str : Type := List Char

/-- JSON values, as produced by `json.load`.  Numbers are modelled as rationals
(the scripts never do arithmetic on them, they are only moved around). -/
inductive JVal : Type where
  | jnull : JVal
  | jbool : Bool → JVal
  | jnum : ℚ → JVal
  | jstr : Str → JVal
  | jarr : List JVal → JVal

/-- One entry of the report's `results` array: a Python dict from field name to
JSON value, in insertion order. -/
abbrev Row : Type := List (Str × JVal)

/-- Python `d[k]` lookup (dict keys are unique, so first match is the match). -/
def dictGet? {β : Type} : List (Str × β) → Str → Option β
  | [], _ => none
  | (k0, v0) :: d, k => if k0 = k then some v0 else dictGet? d k

/-- Python `d[k] = v`: update the value in place if the key is present
(keeping its position), otherwise append the new binding at the end. -/
def dictSet {β : Type} : List (Str × β) → Str → β → List (Str × β)
  | [], k, v => [(k, v)]
  | (k0, v0) :: d, k, v =>
    if k0 = k then (k0, v) :: d else (k0, v0) :: dictSet d k v

/-- Python `del d[k]`: remove the binding for `k`.  Dicts hold each key at most
once, so removing every occurrence agrees with removing the one binding. -/
def dictDel {β : Type} : List (Str × β) → Str → List (Str × β)
  | [], _ => []
  | (k0, v0) :: d, k => if k0 = k then dictDel d k else (k0, v0) :: dictDel d k

/-- Python `d.get(k, dflt)`. -/
def dictGetD {β : Type} (d : List (Str × β)) (k : Str) (dflt : β) : β :=
  match dictGet? d k with
  | some v => v
  | none => dflt

def commandKey : Str := "command".data

def timesKey : Str := "times".data

def commitKey : Str := "commit".data

def messageKey : Str := "message".data

def timeKey : Str := "time".data

/-- The character class `[0-9a-f]` of the revision group of the label regex. -/
def isHexLower (c : Char) : Bool := c.isDigit || (decide ('a' ≤ c) && decide (c ≤ 'f'))

/-- Matching of the suffix `([0-9]+)-([0-9a-f]+) .*` of the label regex against
a string, returning the two captured groups.  Both character classes are
matched by maximal munch, which agrees with the backtracking semantics of
Python `re`: if the maximal run of `[0-9]` is not followed by `-`, it is
followed by a digit, and no shorter run can be followed by `-` either (same for
`[0-9a-f]` and the space).  The trailing `.*` matches anything (possibly
empty), so it imposes no constraint: `re.match` anchors only at the start. -/
def matchTail (t : Str) : Option (Str × Str) :=
  let num := t.takeWhile Char.isDigit
  let r1 := t.dropWhile Char.isDigit
  if num.isEmpty then none
  else
    match r1 with
    | '-' :: r2 =>
      let hex := r2.takeWhile isHexLower
      let r3 := r2.dropWhile isHexLower
      if hex.isEmpty then none
      else
        match r3 with
        | ' ' :: _ => some (num, hex)
        | _ => none
    | _ => none

/-- `re.match("([^/]+/)?([0-9]+)-([0-9a-f]+) .*", s)`, returning the three
groups `(dir?, num, commit)`.  The optional group `([^/]+/)?` can only match up
to the first `/` of the string (its body cannot contain `/`), and the regex
engine tries the group-present alternative first, falling back to group-absent
if the rest of the pattern fails afterwards. -/
def matchLabel (s : Str) : Option (Option Str × Str × Str) :=
  let seg := s.takeWhile (fun c => decide (c ≠ '/'))
  let rest := s.dropWhile (fun c => decide (c ≠ '/'))
  match rest with
  | '/' :: r2 =>
    if seg.isEmpty then
      (matchTail s).map (fun p => (none, p.1, p.2))
    else
      match matchTail r2 with
      | some p => some (some (seg ++ ['/']), p.1, p.2)
      | none => (matchTail s).map (fun p => (none, p.1, p.2))
  | _ => (matchTail s).map (fun p => (none, p.1, p.2))

/-- The dict comprehension
`{commit.id.hex: commit.message for commit in repo.walk(...)}`: starting from
the empty dict, insert the `(hex, message)` pair of every walked commit in
order.  The walked commits are passed in as an abstract list of pairs (the walk
itself is done by the pygit2 library). -/
def commit2message (commits : List (Str × Str)) : List (Str × Str) :=
  commits.foldl (fun d p => dictSet d p.1 p.2) []

/-- The body of the inner loop of the Transformer: `row.copy()`, then set
`commit` to `f"{num}-{commit}"`, set `message` to `commit2message.get(commit, "")`,
delete `times`, and set `time` to the current sample. -/
def output_row (log : List (Str × Str)) (row : Row) (num commit : Str) (time : JVal) : Row :=
  let r1 := dictSet row commitKey (JVal.jstr (num ++ ['-'] ++ commit))
  let r2 := dictSet r1 messageKey (JVal.jstr (dictGetD log commit []))
  let r3 := dictDel r2 timesKey
  dictSet r3 timeKey time

/-- Processing of one entry of `input["results"]`: read `row["command"]`
(KeyError / TypeError if absent or not a string), match the label regex
(AttributeError on `.groups()` if there is no match), then produce one flattened
record per element of `row["times"]`.  Any of those unhandled exceptions is
`none`. -/
def transformRow (log : List (Str × Str)) (row : Row) : Option (List Row) :=
  match dictGet? row commandKey with
  | some (JVal.jstr cmd) =>
    match matchLabel cmd with
    | some (_, num, commit) =>
      match dictGet? row timesKey with
      | some (JVal.jarr times) =>
        some (times.map (fun time => output_row log row num commit time))
      | _ => none
    | _ => none
  | _ => none

/-- The Transformer's main loop over `input["results"]`, accumulating `output`.
`json.dump` runs only after the loop, so an exception on any row means no
output at all (`none`); rows are processed and appended in input order. -/
def transformOutput (log : List (Str × Str)) : List Row → Option (List Row)
  | [] => some []
  | row :: rest =>
    match transformRow log row with
    | none => none
    | some recs =>
      match transformOutput log rest with
      | none => none
      | some out => some (recs ++ out)

/-- The `times` array of a row (used to state length and ordering facts). -/
def rowTimes (row : Row) : List JVal :=
  match dictGet? row timesKey with
  | some (JVal.jarr ts) => ts
  | _ => []

/-- The list of flattened records a single successfully processed row
contributes to the output. -/
def rowRecords (log : List (Str × Str)) (row : Row) : List Row :=
  (transformRow log row).getD []

/-- Number of output records contributed by the rows before index `i`. -/
def sumBefore (results : List Row) (i : Nat) : Nat :=
  ((results.take i).map (fun row => (rowTimes row).length)).sum

/-- A result entry the Transformer can process without raising: its `command`
field is a string matching the label regex and its `times` field is an array. -/
def RowWF (row : Row) : Prop :=
  (∃ cmd, dictGet? row commandKey = some (JVal.jstr cmd) ∧ (matchLabel cmd).isSome = true) ∧
  ∃ ts, dictGet? row timesKey = some (JVal.jarr ts)

/-- `runs = 5` in the Runner. -/
def runs : Nat := 5

/-- Python string comparison, used by `sorted`: lexicographic by code point. -/
def lexLe : Str → Str → Bool
  | [], _ => true
  | _ :: _, [] => false
  | a :: as, b :: bs => if a = b then lexLe as bs else decide (a < b)

/-- The generator expression's element:
`f"{args.executables_dir}/{executable} < {args.input_file} > /dev/null"`. -/
def benchCommand (executables_dir input_file entry : Str) : Str :=
  executables_dir ++ "/".data ++ entry ++ " < ".data ++ input_file ++ " > /dev/null".data

/-- The command strings appended by `hyperfine_args.extend(... for executable in
sorted(os.listdir(args.executables_dir)))`.  The directory listing is passed in
as an abstract list of names (in arbitrary order, as `os.listdir` returns it);
`sorted` is a stable comparison sort, embedded as `mergeSort` under `lexLe`. -/
def benchCommands (executables_dir input_file : Str) (listing : List Str) : List Str :=
  (listing.mergeSort lexLe).map (benchCommand executables_dir input_file)

/-- The full argument list the Runner hands to `subprocess.check_call`. -/
def hyperfine_args (input_file executables_dir output_file : Str) (listing : List Str) : List Str :=
  ["hyperfine".data, "--runs".data, (Nat.repr runs).data, "--export-json".data,
    output_file, "--ignore-failure".data]
    ++ benchCommands executables_dir input_file listing

/-- `subprocess.check_call`: returns normally when the child exits 0, otherwise
raises `CalledProcessError` carrying the child's return code. -/
def check_call (returncode : Nat) : Except Nat Unit :=
  if returncode = 0 then Except.ok () else Except.error returncode

/-- Exit status of a CPython process whose top-level code either finished
normally or raised an exception nobody catches: the interpreter prints a
traceback and exits with status 1, whatever the exception carries. -/
def uncaughtExitStatus : Except Nat Unit → Nat
  | Except.ok _ => 0
  | Except.error _ => 1

/-- Exit status of the Runner script as a function of the external tool's exit
code: the script's last statement is `subprocess.check_call(hyperfine_args)`
with no exception handler around it. -/
def runnerExitStatus (toolExit : Nat) : Nat :=
  uncaughtExitStatus (check_call toolExit)

theorem dictGet?_dictSet_self {β : Type} (d : List (Str × β)) (k : Str) (v : β) :
    dictGet? (dictSet d k v) k = some v := by
  induction d with
  | nil => simp [dictSet, dictGet?]
  | cons p d ih =>
    obtain ⟨k0, v0⟩ := p
    by_cases h : k0 = k
    · simp [dictSet, dictGet?, h]
    · simp [dictSet, dictGet?, h, ih]

theorem dictGet?_dictSet_ne {β : Type} (d : List (Str × β)) (k k' : Str) (v : β)
    (hne : k' ≠ k) : dictGet? (dictSet d k v) k' = dictGet? d k' := by
  induction d with
  | nil => simp [dictSet, dictGet?, Ne.symm hne]
  | cons p d ih =>
    obtain ⟨k0, v0⟩ := p
    by_cases h : k0 = k
    · subst h
      simp [dictSet, dictGet?, Ne.symm hne]
    · simp [dictSet, dictGet?, h, ih]

theorem dictGet?_dictDel_self {β : Type} (d : List (Str × β)) (k : Str) :
    dictGet? (dictDel d k) k = none := by
  induction d with
  | nil => simp [dictDel, dictGet?]
  | cons p d ih =>
    obtain ⟨k0, v0⟩ := p
    by_cases h : k0 = k
    · simp [dictDel, dictGet?, h, ih]
    · simp [dictDel, dictGet?, h, ih]

theorem dictGet?_dictDel_ne {β : Type} (d : List (Str × β)) (k k' : Str)
    (hne : k' ≠ k) : dictGet? (dictDel d k) k' = dictGet? d k' := by
  induction d with
  | nil => simp [dictDel, dictGet?]
  | cons p d ih =>
    obtain ⟨k0, v0⟩ := p
    by_cases h : k0 = k
    · subst h
      simp [dictDel, dictGet?, Ne.symm hne, ih]
    · simp [dictDel, dictGet?, h, ih]

theorem output_row_commit (log : List (Str × Str)) (row : Row) (num commit : Str) (t : JVal) :
    dictGet? (output_row log row num commit t) commitKey
      = some (JVal.jstr (num ++ ['-'] ++ commit)) := by
  unfold output_row
  rw [dictGet?_dictSet_ne _ _ _ _ (by decide), dictGet?_dictDel_ne _ _ _ (by decide),
    dictGet?_dictSet_ne _ _ _ _ (by decide), dictGet?_dictSet_self]

theorem output_row_message (log : List (Str × Str)) (row : Row) (num commit : Str) (t : JVal) :
    dictGet? (output_row log row num commit t) messageKey
      = some (JVal.jstr (dictGetD log commit [])) := by
  unfold output_row
  rw [dictGet?_dictSet_ne _ _ _ _ (by decide), dictGet?_dictDel_ne _ _ _ (by decide),
    dictGet?_dictSet_self]

theorem output_row_time (log : List (Str × Str)) (row : Row) (num commit : Str) (t : JVal) :
    dictGet? (output_row log row num commit t) timeKey = some t := by
  unfold output_row
  rw [dictGet?_dictSet_self]

theorem output_row_times (log : List (Str × Str)) (row : Row) (num commit : Str) (t : JVal) :
    dictGet? (output_row log row num commit t) timesKey = none := by
  unfold output_row
  rw [dictGet?_dictSet_ne _ _ _ _ (by decide), dictGet?_dictDel_self]

theorem output_row_other (log : List (Str × Str)) (row : Row) (num commit : Str) (t : JVal)
    (k : Str) (h1 : k ≠ timesKey) (h2 : k ≠ commitKey) (h3 : k ≠ messageKey)
    (h4 : k ≠ timeKey) :
    dictGet? (output_row log row num commit t) k = dictGet? row k := by
  unfold output_row
  rw [dictGet?_dictSet_ne _ _ _ _ h4, dictGet?_dictDel_ne _ _ _ h1,
    dictGet?_dictSet_ne _ _ _ _ h3, dictGet?_dictSet_ne _ _ _ _ h2]

theorem transformRow_eq (log : List (Str × Str)) (row : Row) (cmd : Str)
    (dir : Option Str) (num commit : Str) (ts : List JVal)
    (hcmd : dictGet? row commandKey = some (JVal.jstr cmd))
    (hm : matchLabel cmd = some (dir, num, commit))
    (ht : dictGet? row timesKey = some (JVal.jarr ts)) :
    transformRow log row = some (ts.map (fun time => output_row log row num commit time)) := by
  simp [transformRow, hcmd, hm, ht]

theorem transformRow_some_inv (log : List (Str × Str)) (row : Row) (recs : List Row)
    (h : transformRow log row = some recs) :
    ∃ cmd dir num commit ts,
      dictGet? row commandKey = some (JVal.jstr cmd) ∧
      matchLabel cmd = some (dir, num, commit) ∧
      dictGet? row timesKey = some (JVal.jarr ts) ∧
      recs = ts.map (fun time => output_row log row num commit time) := by
  unfold transformRow at h
  split at h
  case h_2 => exact absurd h (by simp)
  case h_1 cmd heq =>
    split at h
    case h_2 => exact absurd h (by simp)
    case h_1 dir num commit hm =>
      split at h
      case h_2 => exact absurd h (by simp)
      case h_1 ts ht =>
        exact ⟨cmd, dir, num, commit, ts, heq, hm, ht, (Option.some.inj h).symm⟩

theorem transformRow_some_length (log : List (Str × Str)) (row : Row) (recs : List Row)
    (h : transformRow log row = some recs) :
    recs.length = (rowTimes row).length := by
  obtain ⟨cmd, dir, num, commit, ts, _, _, ht, hrecs⟩ := transformRow_some_inv log row recs h
  subst hrecs
  simp [rowTimes, ht]

theorem transformOutput_cons_some (log : List (Str × Str)) (row : Row) (rest : List Row)
    (out : List Row) (h : transformOutput log (row :: rest) = some out) :
    ∃ recs out2, transformRow log row = some recs ∧ transformOutput log rest = some out2 ∧
      out = recs ++ out2 := by
  unfold transformOutput at h
  split at h
  case h_1 => exact absurd h (by simp)
  case h_2 recs hr =>
    split at h
    case h_1 => exact absurd h (by simp)
    case h_2 out2 ho =>
      exact ⟨recs, out2, hr, ho, (Option.some.inj h).symm⟩

theorem transformOutput_none_of_mem (log : List (Str × Str)) (results : List Row) (row : Row)
    (hmem : row ∈ results) (h : transformRow log row = none) :
    transformOutput log results = none := by
  induction results with
  | nil => cases hmem
  | cons r rs ih =>
    rcases List.mem_cons.mp hmem with heq | hmem2
    · subst heq
      simp [transformOutput, h]
    · cases hr : transformRow log r with
      | none => simp [transformOutput, hr]
      | some recs => simp [transformOutput, hr, ih hmem2]

theorem foldl_dictSet_not_mem (commits : List (Str × Str)) :
    ∀ (acc : List (Str × Str)) (c : Str), c ∉ commits.map Prod.fst →
      dictGet? (commits.foldl (fun d p => dictSet d p.1 p.2) acc) c = dictGet? acc c := by
  induction commits with
  | nil => intro acc c _; rfl
  | cons p rest ih =>
    intro acc c hc
    simp only [List.map_cons, List.mem_cons] at hc
    push_neg at hc
    simp only [List.foldl_cons]
    rw [ih _ c hc.2, dictGet?_dictSet_ne _ _ _ _ hc.1]

theorem commit2message_not_mem (commits : List (Str × Str)) (c : Str)
    (h : c ∉ commits.map Prod.fst) : dictGet? (commit2message commits) c = none := by
  unfold commit2message
  rw [foldl_dictSet_not_mem commits [] c h]
  rfl

theorem foldl_dictSet_mem (commits : List (Str × Str)) :
    ∀ (acc : List (Str × Str)) (c m : Str), (c, m) ∈ commits →
      (commits.map Prod.fst).Nodup →
      dictGet? (commits.foldl (fun d p => dictSet d p.1 p.2) acc) c = some m := by
  induction commits with
  | nil => intro _ _ _ h; cases h
  | cons p rest ih =>
    intro acc c m hmem hnd
    simp only [List.map_cons, List.nodup_cons] at hnd
    simp only [List.foldl_cons]
    rcases List.mem_cons.mp hmem with heq | hmem2
    · subst heq
      rw [foldl_dictSet_not_mem rest _ c hnd.1, dictGet?_dictSet_self]
    · exact ih _ c m hmem2 hnd.2

theorem commit2message_mem (commits : List (Str × Str)) (c m : Str)
    (hnd : (commits.map Prod.fst).Nodup) (hmem : (c, m) ∈ commits) :
    dictGet? (commit2message commits) c = some m :=
  foldl_dictSet_mem commits [] c m hmem hnd

theorem takeWhile_eq_self_of_forall {α : Type} {p : α → Bool} :
    ∀ (l : List α), (∀ c ∈ l, p c = true) → l.takeWhile p = l := by
  intro l
  induction l with
  | nil => intro _; rfl
  | cons x xs ih =>
    intro h
    simp [List.takeWhile_cons, h x (List.mem_cons_self x xs),
      ih (fun c hc => h c (List.mem_cons_of_mem x hc))]

theorem dropWhile_eq_nil_of_forall {α : Type} {p : α → Bool} :
    ∀ (l : List α), (∀ c ∈ l, p c = true) → l.dropWhile p = [] := by
  intro l
  induction l with
  | nil => intro _; rfl
  | cons x xs ih =>
    intro h
    simp [List.dropWhile_cons, h x (List.mem_cons_self x xs),
      ih (fun c hc => h c (List.mem_cons_of_mem x hc))]

theorem takeWhile_append_cons {α : Type} {p : α → Bool} (l : List α) (x : α) (r : List α)
    (hl : ∀ c ∈ l, p c = true) (hx : p x = false) :
    (l ++ x :: r).takeWhile p = l := by
  induction l with
  | nil => simp [List.takeWhile_cons, hx]
  | cons y ys ih =>
    simp [List.takeWhile_cons, hl y (List.mem_cons_self y ys),
      ih (fun c hc => hl c (List.mem_cons_of_mem y hc))]

theorem dropWhile_append_cons {α : Type} {p : α → Bool} (l : List α) (x : α) (r : List α)
    (hl : ∀ c ∈ l, p c = true) (hx : p x = false) :
    (l ++ x :: r).dropWhile p = x :: r := by
  induction l with
  | nil => simp [List.dropWhile_cons, hx]
  | cons y ys ih =>
    simp [List.dropWhile_cons, hl y (List.mem_cons_self y ys),
      ih (fun c hc => hl c (List.mem_cons_of_mem y hc))]

theorem lexLe_total : ∀ (a b : Str), (lexLe a b || lexLe b a) = true := by
  intro a
  induction a with
  | nil => intro b; simp [lexLe]
  | cons x xs ih =>
    intro b
    cases b with
    | nil => simp [lexLe]
    | cons y ys =>
      by_cases h : x = y
      · subst h
        simpa [lexLe] using ih ys
      · simp only [lexLe, if_neg h, if_neg (Ne.symm h), Bool.or_eq_true, decide_eq_true_eq]
        exact lt_or_gt_of_ne h

theorem lexLe_trans : ∀ (a b c : Str), lexLe a b = true → lexLe b c = true →
    lexLe a c = true := by
  intro a
  induction a with
  | nil => intro b c _ _; simp [lexLe]
  | cons x xs ih =>
    intro b c h1 h2
    cases b with
    | nil => simp [lexLe] at h1
    | cons y ys =>
      cases c with
      | nil => simp [lexLe] at h2
      | cons z zs =>
        by_cases hxy : x = y
        · subst hxy
          by_cases hxz : x = z
          · subst hxz
            simp only [lexLe, if_pos rfl] at h1 h2 ⊢
            exact ih ys zs h1 h2
          · simpa [lexLe, hxz] using (by simpa [lexLe, hxz] using h2 : x < z)
        · by_cases hyz : y = z
          · subst hyz
            simpa [lexLe, hxy] using (by simpa [lexLe, hxy] using h1 : x < y)
          · have hxylt : x < y := by simpa [lexLe, hxy] using h1
            have hyzlt : y < z := by simpa [lexLe, hyz] using h2
            have hxzlt : x < z := lt_trans hxylt hyzlt
            simp [lexLe, ne_of_lt hxzlt, hxzlt]

/-- Concrete result entries used to instantiate the theorems below. -/
def rowA : Row :=
  [(commandKey, JVal.jstr "bin/003-abc123 target.txt".data),
   (timesKey, JVal.jarr [JVal.jnum 1, JVal.jnum 2]),
   ("mean".data, JVal.jnum 3)]

def rowB : Row :=
  [(commandKey, JVal.jstr "007-00ff x".data),
   (timesKey, JVal.jarr [JVal.jnum 5])]

/-- A result entry whose command string does not match the label pattern. -/
def rowMytool : Row :=
  [(commandKey, JVal.jstr "mytool".data),
   (timesKey, JVal.jarr [JVal.jnum 1])]

/-- A result entry that already carries a `commit` field before transformation. -/
def rowClash : Row :=
  [(commandKey, JVal.jstr "003-ab x".data),
   (commitKey, JVal.jstr "OLD".data),
   (timesKey, JVal.jarr [JVal.jnum 1])]

/-- Claim C4 (amended): when the external benchmarking tool exits non-zero,
`subprocess.check_call` raises and the uncaught exception makes the Runner
exit with status 1 — non-zero, but not in general equal to the tool's code;
when the tool exits 0 the Runner exits 0. -/
theorem C4_exit_status (toolExit : Nat) :
    (toolExit ≠ 0 → runnerExitStatus toolExit = 1) ∧
    (toolExit = 0 → runnerExitStatus toolExit = 0) := by
  constructor
  · intro h
    simp [runnerExitStatus, check_call, uncaughtExitStatus, h]
  · intro h
    simp [runnerExitStatus, check_call, uncaughtExitStatus, h]

/-- Claim C4 counterexample: with tool exit code 2, `check_call` raises
`CalledProcessError(2)`, and the Runner process exits with status 1 ≠ 2, so the
exit code is not mirrored. -/
theorem C4_counterexample :
    check_call 2 = Except.error 2 ∧ runnerExitStatus 2 = 1 ∧ runnerExitStatus 2 ≠ 2 :=
  ⟨rfl, rfl, by decide⟩

theorem C4_witness :
    (2 ≠ 0 ∧ runnerExitStatus 2 = 1) ∧ ((0 : Nat) = 0 ∧ runnerExitStatus 0 = 0) :=
  ⟨⟨by decide, (C4_exit_status 2).1 (by decide)⟩, ⟨rfl, (C4_exit_status 0).2 rfl⟩⟩

/-- Claim C8: every Runner invocation of the external tool passes the fixed
repeat count 5 (`--runs 5`), JSON export to the given output path
(`--export-json <output_file>`), and `--ignore-failure`, whatever the three
positional arguments and the directory contents are. -/
theorem C8_fixed_flags (input_file executables_dir output_file : Str) (listing : List Str) :
    hyperfine_args input_file executables_dir output_file listing =
      "hyperfine".data :: "--runs".data :: (Nat.repr runs).data :: "--export-json".data ::
        output_file :: "--ignore-failure".data ::
        benchCommands executables_dir input_file listing ∧
    runs = 5 ∧ (Nat.repr runs).data = ['5'] :=
  ⟨rfl, rfl, by decide⟩

/-- Claim C7: an input containing a result entry whose command string does not
match the label pattern makes the whole Transformer run fail with no output at
all — entries are not skipped, and nothing is written because `json.dump` is
only reached after the loop. -/
theorem C7_nonmatching_fails (log : List (Str × Str)) (results : List Row) (row : Row)
    (cmd : Str) (hmem : row ∈ results)
    (hcmd : dictGet? row commandKey = some (JVal.jstr cmd))
    (hm : matchLabel cmd = none) :
    transformOutput log results = none := by
  apply transformOutput_none_of_mem log results row hmem
  simp [transformRow, hcmd, hm]

theorem C7_witness :
    rowMytool ∈ [rowA, rowMytool] ∧
    dictGet? rowMytool commandKey = some (JVal.jstr "mytool".data) ∧
    matchLabel "mytool".data = none ∧
    transformOutput [] [rowA, rowMytool] = none :=
  ⟨List.mem_cons_of_mem rowA (List.mem_singleton.mpr rfl),
   rfl, rfl,
   C7_nonmatching_fails [] [rowA, rowMytool] rowMytool "mytool".data
     (List.mem_cons_of_mem rowA (List.mem_singleton.mpr rfl)) rfl rfl⟩

/-- Claim C6: every output record produced from an input record whose command
matches the label pattern has `commit` equal to `f"{num}-{commit}"`, the
sequence digits and revision hex exactly as captured by the regex groups
(leading zeros kept, no normalization — the groups are copied verbatim). -/
theorem C6_commit_field (log : List (Str × Str)) (row : Row) (cmd : Str)
    (dir : Option Str) (num commit : Str) (ts : List JVal)
    (hcmd : dictGet? row commandKey = some (JVal.jstr cmd))
    (hm : matchLabel cmd = some (dir, num, commit))
    (ht : dictGet? row timesKey = some (JVal.jarr ts)) :
    ∀ rec ∈ rowRecords log row,
      dictGet? rec commitKey = some (JVal.jstr (num ++ ['-'] ++ commit)) := by
  intro rec hrec
  rw [rowRecords, transformRow_eq log row cmd dir num commit ts hcmd hm ht] at hrec
  simp only [Option.getD_some] at hrec
  obtain ⟨t, _, rfl⟩ := List.mem_map.mp hrec
  exact output_row_commit log row num commit t

theorem C6_witness :
    dictGet? rowB commandKey = some (JVal.jstr "007-00ff x".data) ∧
    matchLabel "007-00ff x".data = some (none, "007".data, "00ff".data) ∧
    dictGet? rowB timesKey = some (JVal.jarr [JVal.jnum 5]) ∧
    ∀ rec ∈ rowRecords [] rowB,
      dictGet? rec commitKey = some (JVal.jstr ("007".data ++ ['-'] ++ "00ff".data)) :=
  ⟨rfl, rfl, rfl,
   C6_commit_field [] rowB "007-00ff x".data none "007".data "00ff".data
     [JVal.jnum 5] rfl rfl rfl⟩

/-- Claim C5: with the revision log built from the walked commits, a record
whose extracted revision is absent from the log's keys gets `message` equal to
the empty string (and the row is still processed without error); a revision
present in the log (walked commits with distinct ids) gets that commit's
message verbatim. -/
theorem C5_message_field (commits : List (Str × Str)) (row : Row) (cmd : Str)
    (dir : Option Str) (num commit : Str) (ts : List JVal)
    (hcmd : dictGet? row commandKey = some (JVal.jstr cmd))
    (hm : matchLabel cmd = some (dir, num, commit))
    (ht : dictGet? row timesKey = some (JVal.jarr ts)) :
    (transformRow (commit2message commits) row).isSome = true ∧
    ∀ rec ∈ rowRecords (commit2message commits) row,
      (commit ∉ commits.map Prod.fst →
        dictGet? rec messageKey = some (JVal.jstr [])) ∧
      ((commits.map Prod.fst).Nodup → ∀ msg, (commit, msg) ∈ commits →
        dictGet? rec messageKey = some (JVal.jstr msg)) := by
  have hrow := transformRow_eq (commit2message commits) row cmd dir num commit ts hcmd hm ht
  constructor
  · simp [hrow]
  · intro rec hrec
    rw [rowRecords, hrow] at hrec
    simp only [Option.getD_some] at hrec
    obtain ⟨t, _, rfl⟩ := List.mem_map.mp hrec
    constructor
    · intro habs
      rw [output_row_message]
      simp [dictGetD, commit2message_not_mem commits commit habs]
    · intro hnd msg hmem
      rw [output_row_message]
      simp [dictGetD, commit2message_mem commits commit msg hnd hmem]

theorem C5_witness :
    dictGet? rowA commandKey = some (JVal.jstr "bin/003-abc123 target.txt".data) ∧
    matchLabel "bin/003-abc123 target.txt".data
      = some (some "bin/".data, "003".data, "abc123".data) ∧
    dictGet? rowA timesKey = some (JVal.jarr [JVal.jnum 1, JVal.jnum 2]) ∧
    ((transformRow (commit2message [("00ff".data, "initial commit".data)]) rowA).isSome = true ∧
     ∀ rec ∈ rowRecords (commit2message [("00ff".data, "initial commit".data)]) rowA,
       ("abc123".data ∉ [("00ff".data, "initial commit".data)].map Prod.fst →
         dictGet? rec messageKey = some (JVal.jstr [])) ∧
       (([("00ff".data, "initial commit".data)].map Prod.fst).Nodup →
         ∀ msg, ("abc123".data, msg) ∈ [("00ff".data, "initial commit".data)] →
           dictGet? rec messageKey = some (JVal.jstr msg))) :=
  ⟨rfl, rfl, rfl,
   C5_message_field [("00ff".data, "initial commit".data)] rowA
     "bin/003-abc123 target.txt".data (some "bin/".data) "003".data "abc123".data
     [JVal.jnum 1, JVal.jnum 2] rfl rfl rfl⟩

/-- Claim C2: for a well-formed input report, the Transformer succeeds and its
output array's length is the sum over all result entries of the number of
samples in that entry's `times` list. -/
theorem C2_output_length (log : List (Str × Str)) (results : List Row)
    (hwf : ∀ row ∈ results, RowWF row) :
    ∃ out, transformOutput log results = some out ∧
      out.length = ((results.map (fun row => (rowTimes row).length)).sum) := by
  induction results with
  | nil => exact ⟨[], rfl, rfl⟩
  | cons row rest ih =>
    obtain ⟨out2, ho, hlen⟩ := ih (fun r hr => hwf r (List.mem_cons_of_mem _ hr))
    obtain ⟨⟨cmd, hcmd, hm⟩, ⟨ts, ht⟩⟩ := hwf row (List.mem_cons_self _ _)
    obtain ⟨⟨dir, num, commit⟩, hm2⟩ := Option.isSome_iff_exists.mp hm
    have hrow := transformRow_eq log row cmd dir num commit ts hcmd hm2 ht
    refine ⟨(ts.map fun time => output_row log row num commit time) ++ out2, ?_, ?_⟩
    · simp [transformOutput, hrow, ho]
    · simp [List.length_append, List.length_map, hlen, List.map_cons, List.sum_cons,
        rowTimes, ht]

theorem C2_witness :
    (∀ row ∈ [rowA, rowB], RowWF row) ∧
    ∃ out, transformOutput [] [rowA, rowB] = some out ∧
      out.length = (([rowA, rowB].map (fun row => (rowTimes row).length)).sum) := by
  have hwf : ∀ row ∈ [rowA, rowB], RowWF row := by
    intro row hr
    rcases List.mem_cons.mp hr with heq | hr2
    · subst heq
      exact ⟨⟨"bin/003-abc123 target.txt".data, rfl, rfl⟩,
        ⟨[JVal.jnum 1, JVal.jnum 2], rfl⟩⟩
    · rcases List.mem_cons.mp hr2 with heq | h3
      · subst heq
        exact ⟨⟨"007-00ff x".data, rfl, rfl⟩, ⟨[JVal.jnum 5], rfl⟩⟩
      · cases h3
  exact ⟨hwf, C2_output_length [] [rowA, rowB] hwf⟩

/-- Claim C1 (amended): for every result entry whose command matches the label
pattern, each sample of its `times` list yields one output record; that record
keeps every original field other than `times`, `commit`, `message` and `time`
with its original value, drops `times`, carries the scalar `time` equal to the
sample, and has `commit` and `message` set to the computed values — a
preexisting `commit`, `message` or `time` field of the input record is
overwritten, not preserved. -/
theorem C1_flattened_record (log : List (Str × Str)) (row : Row) (cmd : Str)
    (dir : Option Str) (num commit : Str) (ts : List JVal)
    (hcmd : dictGet? row commandKey = some (JVal.jstr cmd))
    (hm : matchLabel cmd = some (dir, num, commit))
    (ht : dictGet? row timesKey = some (JVal.jarr ts)) :
    transformRow log row = some (ts.map fun time => output_row log row num commit time) ∧
    ∀ time : JVal,
      (∀ k : Str, k ≠ timesKey → k ≠ commitKey → k ≠ messageKey → k ≠ timeKey →
        dictGet? (output_row log row num commit time) k = dictGet? row k) ∧
      dictGet? (output_row log row num commit time) timesKey = none ∧
      dictGet? (output_row log row num commit time) timeKey = some time ∧
      dictGet? (output_row log row num commit time) commitKey
        = some (JVal.jstr (num ++ ['-'] ++ commit)) ∧
      dictGet? (output_row log row num commit time) messageKey
        = some (JVal.jstr (dictGetD log commit [])) :=
  ⟨transformRow_eq log row cmd dir num commit ts hcmd hm ht,
   fun time =>
    ⟨fun k h1 h2 h3 h4 => output_row_other log row num commit time k h1 h2 h3 h4,
     output_row_times log row num commit time,
     output_row_time log row num commit time,
     output_row_commit log row num commit time,
     output_row_message log row num commit time⟩⟩

/-- Claim C1 counterexample: an input record that already owns a `commit` field
(value `"OLD"`) matches the label pattern, but the produced record's `commit`
field is the computed label `"003-ab"`, not the original value — so the claim
"contains every field of the originating result record with its original
value, except `times`" fails as stated. -/
theorem C1_counterexample :
    dictGet? rowClash commitKey = some (JVal.jstr "OLD".data) ∧
    transformOutput [] [rowClash]
      = some [output_row [] rowClash "003".data "ab".data (JVal.jnum 1)] ∧
    dictGet? (output_row [] rowClash "003".data "ab".data (JVal.jnum 1)) commitKey
      ≠ some (JVal.jstr "OLD".data) := by
  refine ⟨rfl, rfl, ?_⟩
  have hv : dictGet? (output_row [] rowClash "003".data "ab".data (JVal.jnum 1)) commitKey
      = some (JVal.jstr "003-ab".data) := rfl
  rw [hv]
  intro hEq
  exact absurd (JVal.jstr.inj (Option.some.inj hEq)) (by decide)

theorem C1_witness :
    dictGet? rowA commandKey = some (JVal.jstr "bin/003-abc123 target.txt".data) ∧
    matchLabel "bin/003-abc123 target.txt".data
      = some (some "bin/".data, "003".data, "abc123".data) ∧
    dictGet? rowA timesKey = some (JVal.jarr [JVal.jnum 1, JVal.jnum 2]) ∧
    (transformRow [] rowA
      = some ([JVal.jnum 1, JVal.jnum 2].map
          fun time => output_row [] rowA "003".data "abc123".data time) ∧
     ∀ time : JVal,
      (∀ k : Str, k ≠ timesKey → k ≠ commitKey → k ≠ messageKey → k ≠ timeKey →
        dictGet? (output_row [] rowA "003".data "abc123".data time) k = dictGet? rowA k) ∧
      dictGet? (output_row [] rowA "003".data "abc123".data time) timesKey = none ∧
      dictGet? (output_row [] rowA "003".data "abc123".data time) timeKey = some time ∧
      dictGet? (output_row [] rowA "003".data "abc123".data time) commitKey
        = some (JVal.jstr ("003".data ++ ['-'] ++ "abc123".data)) ∧
      dictGet? (output_row [] rowA "003".data "abc123".data time) messageKey
        = some (JVal.jstr (dictGetD [] "abc123".data []))) :=
  ⟨rfl, rfl, rfl,
   C1_flattened_record [] rowA "bin/003-abc123 target.txt".data (some "bin/".data)
     "003".data "abc123".data [JVal.jnum 1, JVal.jnum 2] rfl rfl rfl⟩

/-- Claim C10: a command of the bare form `<digits>-<hex>` with nothing after
the revision has no `/`, so only the group-absent alternative is tried, and
after the digit run, the `-`, and the hex run the pattern still demands a
literal space, which the end of the string cannot supply — no match, and an
entry carrying such a command makes the whole Transformer run fail with no
output, exactly like a fully non-conforming label. -/
theorem C10_no_trailing_space (d h : Str) (hd : d ≠ []) (hh : h ≠ [])
    (hdall : ∀ c ∈ d, c.isDigit = true) (hhall : ∀ c ∈ h, isHexLower c = true) :
    matchLabel (d ++ '-' :: h) = none ∧
    ∀ (log : List (Str × Str)) (results : List Row) (row : Row),
      row ∈ results → dictGet? row commandKey = some (JVal.jstr (d ++ '-' :: h)) →
      transformOutput log results = none := by
  have hslash : ∀ c ∈ (d ++ '-' :: h), (fun c => decide (c ≠ '/')) c = true := by
    intro c hc
    simp only [decide_eq_true_eq]
    intro hcontra
    subst hcontra
    rcases List.mem_append.mp hc with hcd | hch
    · exact absurd (hdall _ hcd) (by decide)
    · rcases List.mem_cons.mp hch with heq | hch2
      · exact absurd heq (by decide)
      · exact absurd (hhall _ hch2) (by decide)
  have hmt : matchTail (d ++ '-' :: h) = none := by
    obtain ⟨d0, d', rfl⟩ := List.exists_cons_of_ne_nil hd
    obtain ⟨h0, h', rfl⟩ := List.exists_cons_of_ne_nil hh
    simp only [matchTail,
      takeWhile_append_cons (d0 :: d') '-' (h0 :: h') hdall (by decide),
      dropWhile_append_cons (d0 :: d') '-' (h0 :: h') hdall (by decide),
      takeWhile_eq_self_of_forall (h0 :: h') hhall,
      dropWhile_eq_nil_of_forall (h0 :: h') hhall]
    simp
  have hml : matchLabel (d ++ '-' :: h) = none := by
    simp only [matchLabel, dropWhile_eq_nil_of_forall (d ++ '-' :: h) hslash, hmt]
    rfl
  refine ⟨hml, ?_⟩
  intro log results row hmem hcmd
  apply transformOutput_none_of_mem log results row hmem
  simp [transformRow, hcmd, hml]

theorem C10_witness :
    ("003".data ≠ ([] : Str)) ∧ ("abc123".data ≠ ([] : Str)) ∧
    (∀ c ∈ "003".data, c.isDigit = true) ∧
    (∀ c ∈ "abc123".data, isHexLower c = true) ∧
    (matchLabel ("003".data ++ '-' :: "abc123".data) = none ∧
     ∀ (log : List (Str × Str)) (results : List Row) (row : Row),
       row ∈ results →
       dictGet? row commandKey = some (JVal.jstr ("003".data ++ '-' :: "abc123".data)) →
       transformOutput log results = none) :=
  ⟨by decide, by decide, by decide, by decide,
   C10_no_trailing_space "003".data "abc123".data (by decide) (by decide)
     (by decide) (by decide)⟩

/-- Claim C3: for a directory listing of N names (distinct, as a directory
listing is), the single tool invocation carries after its fixed flags exactly N
command strings — one per entry, sorted lexicographically by name, each of the
form `<executables_dir>/<entry> < <input_file> > /dev/null`, all referencing
the same input file and pairwise distinct executables. -/
theorem C3_runner_commands (input_file executables_dir output_file : Str)
    (listing : List Str) (hnd : listing.Nodup) :
    hyperfine_args input_file executables_dir output_file listing =
      ["hyperfine".data, "--runs".data, (Nat.repr runs).data, "--export-json".data,
        output_file, "--ignore-failure".data]
        ++ benchCommands executables_dir input_file listing ∧
    (benchCommands executables_dir input_file listing).length = listing.length ∧
    (∀ c ∈ benchCommands executables_dir input_file listing, ∃ e ∈ listing,
      c = executables_dir ++ "/".data ++ e ++ " < ".data ++ input_file
        ++ " > /dev/null".data) ∧
    benchCommands executables_dir input_file listing =
      (listing.mergeSort lexLe).map (benchCommand executables_dir input_file) ∧
    List.Pairwise (fun a b => lexLe a b = true) (listing.mergeSort lexLe) ∧
    (benchCommands executables_dir input_file listing).Nodup := by
  refine ⟨rfl, ?_, ?_, rfl, ?_, ?_⟩
  · rw [benchCommands, List.length_map, (List.mergeSort_perm listing lexLe).length_eq]
  · intro c hc
    rw [benchCommands] at hc
    obtain ⟨e, he, rfl⟩ := List.mem_map.mp hc
    exact ⟨e, (List.mergeSort_perm listing lexLe).mem_iff.mp he, rfl⟩
  · exact List.sorted_mergeSort lexLe_trans lexLe_total listing
  · refine List.Nodup.map ?_ ((List.mergeSort_perm listing lexLe).symm.nodup hnd)
    intro e1 e2 he
    unfold benchCommand at he
    exact List.append_cancel_left
      (List.append_cancel_right (List.append_cancel_right (List.append_cancel_right he)))

theorem C3_witness :
    ([ "bb".data, "aa".data, "ab".data ] : List Str).Nodup ∧
    (hyperfine_args "in.txt".data "bin".data "out.json".data
        ["bb".data, "aa".data, "ab".data] =
      ["hyperfine".data, "--runs".data, (Nat.repr runs).data, "--export-json".data,
        "out.json".data, "--ignore-failure".data]
        ++ benchCommands "bin".data "in.txt".data ["bb".data, "aa".data, "ab".data] ∧
     (benchCommands "bin".data "in.txt".data ["bb".data, "aa".data, "ab".data]).length
        = (["bb".data, "aa".data, "ab".data] : List Str).length ∧
     (∀ c ∈ benchCommands "bin".data "in.txt".data ["bb".data, "aa".data, "ab".data],
       ∃ e ∈ (["bb".data, "aa".data, "ab".data] : List Str),
         c = "bin".data ++ "/".data ++ e ++ " < ".data ++ "in.txt".data
           ++ " > /dev/null".data) ∧
     benchCommands "bin".data "in.txt".data ["bb".data, "aa".data, "ab".data] =
       ((["bb".data, "aa".data, "ab".data] : List Str).mergeSort lexLe).map
         (benchCommand "bin".data "in.txt".data) ∧
     List.Pairwise (fun a b => lexLe a b = true)
       ((["bb".data, "aa".data, "ab".data] : List Str).mergeSort lexLe) ∧
     (benchCommands "bin".data "in.txt".data ["bb".data, "aa".data, "ab".data]).Nodup) :=
  ⟨by decide,
   C3_runner_commands "in.txt".data "bin".data "out.json".data
     ["bb".data, "aa".data, "ab".data] (by decide)⟩

theorem transformOutput_get (log : List (Str × Str)) :
    ∀ (results : List Row) (out : List Row), transformOutput log results = some out →
      ∀ (i k : Nat) (hi : i < results.length),
        k < (rowRecords log results[i]).length →
        out[sumBefore results i + k]? = (rowRecords log results[i])[k]? := by
  intro results
  induction results with
  | nil =>
    intro out _ i k hi
    exact absurd hi (by simp)
  | cons row rest ih =>
    intro out h i k hi hk
    obtain ⟨recs, out2, hr, ho, rfl⟩ := transformOutput_cons_some log row rest out h
    cases i with
    | zero =>
      have hrecs : rowRecords log row = recs := by simp [rowRecords, hr]
      simp only [List.getElem_cons_zero] at hk ⊢
      rw [hrecs] at hk ⊢
      have hs : sumBefore (row :: rest) 0 + k = k := by simp [sumBefore]
      rw [hs, List.getElem?_append_left hk]
    | succ i2 =>
      have hlen : recs.length = (rowTimes row).length :=
        transformRow_some_length log row recs hr
      simp only [List.getElem_cons_succ] at hk ⊢
      have hs : sumBefore (row :: rest) (i2 + 1)
          = (rowTimes row).length + sumBefore rest i2 := by
        simp [sumBefore, List.take_succ_cons]
      rw [hs]
      have hidx : (rowTimes row).length + sumBefore rest i2 + k
          = recs.length + (sumBefore rest i2 + k) := by omega
      rw [hidx, List.getElem?_append_right (Nat.le_add_right _ _),
        Nat.add_sub_cancel_left]
      exact ih out2 ho i2 k (Nat.lt_of_succ_lt_succ hi) hk

/-- Claim C9: the output array preserves input order — the record for sample k
of result entry i sits at global position (number of samples of all earlier
entries) + k, and within one entry the records follow the order of its `times`
list (the entry's record list is the in-order map over its samples). -/
theorem C9_output_order (log : List (Str × Str)) (results : List Row) (out : List Row)
    (h : transformOutput log results = some out) :
    (∀ (i k : Nat) (hi : i < results.length),
      k < (rowRecords log results[i]).length →
      out[sumBefore results i + k]? = (rowRecords log results[i])[k]?) ∧
    (∀ row ∈ results, ∀ (cmd : Str) (dir : Option Str) (num commit : Str) (ts : List JVal),
      dictGet? row commandKey = some (JVal.jstr cmd) →
      matchLabel cmd = some (dir, num, commit) →
      dictGet? row timesKey = some (JVal.jarr ts) →
      rowRecords log row = ts.map fun time => output_row log row num commit time) := by
  constructor
  · exact fun i k hi hk => transformOutput_get log results out h i k hi hk
  · intro row _ cmd dir num commit ts hcmd hm ht
    rw [rowRecords, transformRow_eq log row cmd dir num commit ts hcmd hm ht]
    rfl

theorem C9_witness :
    transformOutput [] [rowA, rowB] = some ((transformOutput [] [rowA, rowB]).getD []) ∧
    ((∀ (i k : Nat) (hi : i < ([rowA, rowB] : List Row).length),
      k < (rowRecords [] ([rowA, rowB] : List Row)[i]).length →
      ((transformOutput [] [rowA, rowB]).getD [])[sumBefore [rowA, rowB] i + k]?
        = (rowRecords [] ([rowA, rowB] : List Row)[i])[k]?) ∧
     (∀ row ∈ ([rowA, rowB] : List Row),
       ∀ (cmd : Str) (dir : Option Str) (num commit : Str) (ts : List JVal),
       dictGet? row commandKey = some (JVal.jstr cmd) →
       matchLabel cmd = some (dir, num, commit) →
       dictGet? row timesKey = some (JVal.jarr ts) →
       rowRecords [] row = ts.map fun time => output_row [] row num commit time)) :=
  ⟨rfl,
   C9_output_order [] [rowA, rowB] ((transformOutput [] [rowA, rowB]).getD []) rfl⟩
